import Mathlib

/-!
Verification of the song-notes format-grouping and schema-migration engine.

The TypeScript sources under `src/lib` (formatUtils.ts, audioScanner.ts,
db.ts, fileSystem.ts) and `src/store/appStore.ts` are shallowly embedded
below.  JavaScript numbers carrying byte counts and identifiers are
modelled as `Nat`, durations and raw bitrates as `ℚ`, ISO date strings as
`String`.  The asynchronous persistence layer is modelled as explicit
state passing over a record of tables; the fileHandles registry keys
(UUID strings produced by crypto.randomUUID) are modelled as naturals
allocated from a counter, which captures the freshness of random UUIDs.
-/

namespace SongNotes

/-- One format entry embedded in a Version (db.ts, interface VersionFormat).
`fileHandle` is the indirection key into the fileHandles registry. -/
structure VersionFormat where
  fileHandle : Nat
  fileName : String
  format : String
  bitrate : Option ℤ
  duration : Option ℚ
  fileSize : Nat
  modifiedAt : String
deriving Repr, DecidableEq, Inhabited

/-- A grouped multi-format version row (db.ts, interface Version). -/
structure Version where
  id : Nat
  songId : Nat
  versionName : String
  formats : List VersionFormat
  selectedFormatIndex : Nat
  hasDurationMismatch : Bool
  rating : Option ℚ
  createdAt : String
  modifiedAt : String
deriving Repr, DecidableEq

/-- A song row (db.ts, interface Song). -/
structure Song where
  id : Nat
  name : String
  folderHandle : Nat
  createdAt : String
  sortPreference : Option String
deriving Repr, DecidableEq

/-- A row of one of the dependent tables (versionTags, notes, images).
The engine only ever reads or rewrites `versionId`; the remaining columns
are kept abstract in `payload`. -/
structure DepRow (α : Type) where
  versionId : Nat
  payload : α
deriving Repr, DecidableEq

/-- Columns of a Note row other than `versionId` (db.ts, interface Note). -/
structure NoteData where
  id : Nat
  content : String
  timestamp : Option ℚ
  createdAt : String
  updatedAt : String
deriving Repr, DecidableEq

/-- Columns of an Image row other than `versionId` (db.ts, interface Image). -/
structure ImageData where
  id : Nat
  fileName : String
  caption : Option String
  createdAt : String
deriving Repr, DecidableEq

/-! ## formatUtils.ts -/

/-- Index of the last occurrence of `c` in `l`, or `-1` when absent
(JavaScript `String.prototype.lastIndexOf`). -/
def lastIndexOf (c : Char) (l : List Char) : Int :=
  match l.reverse.findIdx? (fun d => d = c) with
  | none => -1
  | some j => (l.length : Int) - 1 - j

/-- formatUtils.ts `getBaseFileName`: strip the final extension only when a
dot occurs at an index greater than 0. -/
def getBaseFileName (fileName : String) : String :=
  let l := fileName.toList
  let lastDot := lastIndexOf '.' l
  if lastDot > 0 then String.mk (l.take lastDot.toNat) else fileName

/-- The characters after the last dot of a file name
(`name.slice(name.lastIndexOf('.') + 1)` in audioScanner.ts). -/
def extAfterLastDot (fileName : String) : String :=
  let l := fileName.toList
  String.mk (l.drop (lastIndexOf '.' l + 1).toNat)

/-- The loop of formatUtils.ts `findSmallestFormat`: scan the remaining
formats starting at position `i`, keeping the index and size of the
smallest format seen so far; only a strictly smaller size displaces the
current best. -/
def findSmallestAux : List VersionFormat → Nat → Nat → Nat → Nat
  | [], _, bestIdx, _ => bestIdx
  | f :: fs, i, bestIdx, bestSize =>
    if f.fileSize < bestSize then findSmallestAux fs (i + 1) i f.fileSize
    else findSmallestAux fs (i + 1) bestIdx bestSize

/-- formatUtils.ts `findSmallestFormat`: index of the format with minimum
`fileSize`, 0 for the empty list. -/
def findSmallestFormat (formats : List VersionFormat) : Nat :=
  match formats with
  | [] => 0
  | f0 :: rest => findSmallestAux rest 1 0 f0.fileSize

/-- `Math.max` over a non-empty argument list (head supplied separately). -/
def listMax (d : ℚ) (ds : List ℚ) : ℚ := ds.foldl max d

/-- `Math.min` over a non-empty argument list (head supplied separately). -/
def listMin (d : ℚ) (ds : List ℚ) : ℚ := ds.foldl min d

/-- formatUtils.ts `checkDurationMismatch`: false with fewer than two
formats or fewer than two non-null durations, otherwise true when the
relative spread of the known durations exceeds 5%. -/
def checkDurationMismatch (formats : List VersionFormat) : Bool :=
  if formats.length < 2 then false
  else
    let durations := (formats.map (fun f => f.duration)).filterMap id
    if durations.length < 2 then false
    else
      match durations with
      | [] => false
      | d :: ds =>
        let mx := listMax d ds
        let mn := listMin d ds
        decide ((mx - mn) / mx > 5 / 100)

/-! ## fileSystem.ts and the persisted store

The Dexie database is modelled as one record of tables.  Auto-increment
primary keys are modelled by the `nextVersionId` counter; the UUID keys
of the fileHandles registry by the `nextKey` counter (crypto.randomUUID
always yields a key distinct from every stored one, which the counter
captures). -/

/-- A FileSystemFileHandle: its `name` plus the identity of the physical
file it grants access to. -/
structure FileHandle where
  name : String
  file : Nat
deriving Repr, DecidableEq, Inhabited

/-- The whole persisted store (db.ts, class MusicNotesDB). -/
structure DBState where
  songs : List Song
  versions : List Version
  versionTags : List (DepRow Nat)
  notes : List (DepRow NoteData)
  images : List (DepRow ImageData)
  fileHandles : List (Nat × FileHandle)
  nextKey : Nat
  nextVersionId : Nat
deriving Repr, DecidableEq

/-- fileSystem.ts `serializeHandle`: allocate a fresh random UUID key,
insert a new registry row, return the key. -/
def serializeHandle (h : FileHandle) (db : DBState) : Nat × DBState :=
  (db.nextKey,
    { db with
      fileHandles := db.fileHandles ++ [(db.nextKey, h)]
      nextKey := db.nextKey + 1 })

/-- fileSystem.ts `deserializeHandle`: look the key up in the registry. -/
def deserializeHandle (k : Nat) (db : DBState) : Option FileHandle :=
  (db.fileHandles.find? (fun p => p.1 == k)).map (fun p => p.2)

/-- All stored registry keys are below the allocation counter: the
freshness invariant of crypto.randomUUID in the counter model. -/
def RegistryWF (db : DBState) : Prop :=
  ∀ p ∈ db.fileHandles, p.1 < db.nextKey

/-! ## audioScanner.ts -/

/-- What `parseBlob` reports on success; `none` fields model `undefined`.
`bitrate` is in bits per second as reported by the parser. -/
structure ParsedMeta where
  container : Option String
  duration : Option ℚ
  bitrate : Option ℚ
deriving Repr, DecidableEq

/-- A readable file: the parse outcome of its bytes (`none` models
`parseBlob` throwing), its size and last-modified time. -/
structure RawFile where
  parse : Option ParsedMeta
  size : Nat
  lastModified : String
deriving Repr, DecidableEq

/-- JavaScript `Math.round`: halves round toward positive infinity. -/
def jsRound (q : ℚ) : ℤ := ⌊q + 1 / 2⌋

/-- Result shape of audioScanner.ts `extractAudioMetadata`. -/
structure AudioMeta where
  duration : Option ℚ
  bitrate : Option ℤ
  format : String
deriving Repr, DecidableEq

/-- audioScanner.ts `extractAudioMetadata`.  On parse success the fields
pass through JavaScript truthiness (`duration || null`, `bitrate ? ... :
null`, `container || extension`): a missing or zero value degrades to
`null` resp. the extension fallback.  On parse failure every field takes
its fallback.  The function itself never throws. -/
def extractAudioMetadata (r : RawFile) (fileName : String) : AudioMeta :=
  match r.parse with
  | some m =>
    { duration :=
        match m.duration with
        | some d => if d = 0 then none else some d
        | none => none
      bitrate :=
        match m.bitrate with
        | some b => if b = 0 then none else some (jsRound (b / 1000))
        | none => none
      format :=
        match m.container with
        | some c => if c = "" then extAfterLastDot fileName else c
        | none => extAfterLastDot fileName }
  | none =>
    { duration := none, bitrate := none, format := extAfterLastDot fileName }

/-- audioScanner.ts `extractFormatMetadata`.  The environment `env` maps a
handle to the file it opens; `env h = none` models the try-block throwing
(file access failure), in which case `null` is returned and the store is
untouched.  On success the handle is registered (a fresh indirection key)
and the format record is assembled. -/
def extractFormatMetadata (env : FileHandle → Option RawFile)
    (h : FileHandle) (db : DBState) : Option VersionFormat × DBState :=
  match env h with
  | none => (none, db)
  | some r =>
    let p := serializeHandle h db
    let audio := extractAudioMetadata r h.name
    (some
      { fileHandle := p.1
        fileName := h.name
        format := audio.format
        bitrate := audio.bitrate
        duration := audio.duration
        fileSize := r.size
        modifiedAt := r.lastModified }, p.2)

/-- The format-collection loop of `createVersionWithFormats`: extract each
handle in order, pushing successful extractions. -/
def extractLoop (env : FileHandle → Option RawFile)
    (handles : List FileHandle) (acc : List VersionFormat) (db : DBState) :
    List VersionFormat × DBState :=
  match handles with
  | [] => (acc, db)
  | h :: hs =>
    match (extractFormatMetadata env h db).1 with
    | some fd => extractLoop env hs (acc ++ [fd]) (extractFormatMetadata env h db).2
    | none => extractLoop env hs acc (extractFormatMetadata env h db).2

/-- audioScanner.ts `createVersionWithFormats`: collect formats, bail out
with no write when none survive, otherwise add one new version row. -/
def createVersionWithFormats (env : FileHandle → Option RawFile)
    (songId : Nat) (versionName : String) (handles : List FileHandle)
    (now : String) (db : DBState) : DBState :=
  match extractLoop env handles [] db with
  | ([], db') => db'
  | (f0 :: rest, db') =>
    let formats := f0 :: rest
    let selectedFormatIndex := findSmallestFormat formats
    { db' with
      versions := db'.versions ++
        [{ id := db'.nextVersionId
           songId := songId
           versionName := versionName
           formats := formats
           selectedFormatIndex := selectedFormatIndex
           hasDurationMismatch := checkDurationMismatch formats
           rating := none
           createdAt := now
           modifiedAt := (formats.getD selectedFormatIndex f0).modifiedAt }]
      nextVersionId := db'.nextVersionId + 1 }

/-- The candidate loop of `addNewFormatsToVersion`: serialize each handle
(allocating a fresh key), skip it when that key is already among the
existing format keys, otherwise extract and append. -/
def mergeLoop (env : FileHandle → Option RawFile) (existingKeys : List Nat)
    (handles : List FileHandle) (acc : List VersionFormat) (hasNew : Bool)
    (db : DBState) : List VersionFormat × Bool × DBState :=
  match handles with
  | [] => (acc, hasNew, db)
  | h :: hs =>
    if (serializeHandle h db).1 ∈ existingKeys then
      mergeLoop env existingKeys hs acc hasNew (serializeHandle h db).2
    else
      match (extractFormatMetadata env h (serializeHandle h db).2).1 with
      | some fd =>
        mergeLoop env existingKeys hs (acc ++ [fd]) true
          (extractFormatMetadata env h (serializeHandle h db).2).2
      | none =>
        mergeLoop env existingKeys hs acc hasNew
          (extractFormatMetadata env h (serializeHandle h db).2).2

/-- `db.versions.update(id, changes)` : patch the row with the given
primary key. -/
def updateVersionRow (vs : List Version) (vid : Nat) (f : Version → Version) :
    List Version :=
  vs.map (fun v => if v.id = vid then f v else v)

/-- audioScanner.ts `addNewFormatsToVersion`: run the candidate loop
against the existing key set and, only when some format was appended,
write back the grown list with recomputed policy outputs and a fresh
`modifiedAt`. -/
def addNewFormatsToVersion (env : FileHandle → Option RawFile)
    (version : Version) (handles : List FileHandle) (now : String)
    (db : DBState) : DBState :=
  let existingHandleIds := version.formats.map (fun f => f.fileHandle)
  let res := mergeLoop env existingHandleIds handles version.formats false db
  if res.2.1 then
    { res.2.2 with
      versions := updateVersionRow res.2.2.versions version.id (fun v =>
        { v with
          formats := res.1
          selectedFormatIndex := findSmallestFormat res.1
          hasDurationMismatch := checkDurationMismatch res.1
          modifiedAt := now }) }
  else res.2.2

/-- One step of the grouping Map of `scanAndAddAudioFiles`: push the
handle onto its base-name group, creating the group at the end on first
sight (JavaScript Map preserves insertion order). -/
def groupInsert (m : List (String × List FileHandle)) (k : String)
    (h : FileHandle) : List (String × List FileHandle) :=
  match m with
  | [] => [(k, [h])]
  | (k', hs) :: rest =>
    if k' = k then (k', hs ++ [h]) :: rest
    else (k', hs) :: groupInsert rest k h

/-- The grouping pass of audioScanner.ts `scanAndAddAudioFiles`. -/
def groupFiles (handles : List FileHandle) : List (String × List FileHandle) :=
  handles.foldl (fun m h => groupInsert m (getBaseFileName h.name) h) []

/-- audioScanner.ts `scanAndAddAudioFiles`: group the scanned handles by
base name, then per group either merge into the existing version of that
name or create a new one. -/
def scanAndAddAudioFiles (env : FileHandle → Option RawFile) (songId : Nat)
    (handles : List FileHandle) (now : String) (db : DBState) : DBState :=
  (groupFiles handles).foldl (fun d g =>
    match d.versions.find?
        (fun v => v.songId == songId && v.versionName == g.1) with
    | some existing => addNewFormatsToVersion env existing g.2 now d
    | none => createVersionWithFormats env songId g.1 g.2 now d) db

/-! ## Cascade deletion hooks (db.ts constructor) and store commands -/

/-- The versions `deleting` hook: remove every dependent row carrying the
deleted version's id. -/
def deleteVersionDependents (db : DBState) (vid : Nat) : DBState :=
  { db with
    versionTags := db.versionTags.filter (fun t => t.versionId != vid)
    notes := db.notes.filter (fun n => n.versionId != vid)
    images := db.images.filter (fun i => i.versionId != vid) }

/-- `db.versions.delete(vid)`: fire the deleting hook on the stored row
(when present), then remove the row. -/
def deleteVersionRow (db : DBState) (vid : Nat) : DBState :=
  match db.versions.find? (fun v => v.id == vid) with
  | none => db
  | some v =>
    let db1 := deleteVersionDependents db v.id
    { db1 with versions := db1.versions.filter (fun w => w.id != vid) }

/-- useDB `removeSong` = `db.songs.delete(sid)`: the songs deleting hook
bulk-deletes the song's versions (firing the versions hook per row),
then the song row is removed. -/
def removeSong (db : DBState) (sid : Nat) : DBState :=
  match db.songs.find? (fun s => s.id == sid) with
  | none => db
  | some s =>
    let doomed := db.versions.filter (fun v => v.songId == s.id)
    let db1 := doomed.foldl (fun d v => deleteVersionDependents d v.id) db
    { db1 with
      versions := db1.versions.filter (fun v => v.songId != s.id)
      songs := db1.songs.filter (fun t => t.id != sid) }

/-- useDB `updateVersionFormat`: patch `selectedFormatIndex` with the
given index, with no bounds check and no recomputation. -/
def updateVersionFormat (db : DBState) (vid formatIndex : Nat) : DBState :=
  { db with
    versions := updateVersionRow db.versions vid (fun v =>
      { v with selectedFormatIndex := formatIndex }) }

/-! ## The 1-to-2 schema migration (db.ts, version(2).upgrade) -/

/-- A legacy flat version row (db.ts, interface V1Version). -/
structure V1Version where
  id : Nat
  songId : Nat
  fileHandle : Nat
  fileName : String
  rating : Option ℚ
  duration : Option ℚ
  bitrate : Option ℤ
  format : Option String
  createdAt : String
  modifiedAt : String
deriving Repr, DecidableEq, Inhabited

/-- The migration's group key: `songId + "_" + baseName(fileName)`. -/
def groupKeyV1 (o : V1Version) : String :=
  toString o.songId ++ "_" ++ getBaseFileName o.fileName

/-- One step of the migration's grouping Map (insertion order kept). -/
def groupInsertV1 (m : List (String × List V1Version)) (k : String)
    (o : V1Version) : List (String × List V1Version) :=
  match m with
  | [] => [(k, [o])]
  | (k', os) :: rest =>
    if k' = k then (k', os ++ [o]) :: rest
    else (k', os) :: groupInsertV1 rest k o

/-- The migration's grouping pass over all legacy rows. -/
def buildGroupsV1 (olds : List V1Version) : List (String × List V1Version) :=
  olds.foldl (fun m o => groupInsertV1 m (groupKeyV1 o) o) []

/-- Split a character list at every occurrence of `c` (JavaScript
`String.prototype.split` with a single-character separator). -/
def splitChar (c : Char) : List Char → List (List Char)
  | [] => [[]]
  | x :: xs =>
    if x = c then [] :: splitChar c xs
    else
      match splitChar c xs with
      | [] => [[x]]
      | s :: ss => (x :: s) :: ss

/-- JavaScript `groupKey.split('_')`. -/
def splitOnChar (c : Char) (s : String) : List String :=
  (splitChar c s.toList).map String.mk

/-- Accumulate the decimal value of a digit list. -/
def parseIntNatAux : List Char → Nat → Nat
  | [], acc => acc
  | c :: cs, acc => parseIntNatAux cs (acc * 10 + (c.toNat - '0'.toNat))

/-- JavaScript `parseInt` on the all-digit decimal strings produced by
stringifying a numeric songId. -/
def parseIntNat (s : String) : Nat := parseIntNatAux s.toList 0

/-- Translate one legacy row into the Format shape.  `fsize` is the
best-effort file-size lookup through the handle registry; a missing
handle or a thrown lookup degrades to size 0.  An absent or empty legacy
`format` string degrades to "unknown" (JavaScript `|| 'unknown'`). -/
def v1ToFormat (fsize : Nat → Option Nat) (o : V1Version) : VersionFormat :=
  { fileHandle := o.fileHandle
    fileName := o.fileName
    format :=
      match o.format with
      | some s => if s = "" then "unknown" else s
      | none => "unknown"
    bitrate := o.bitrate
    duration := o.duration
    fileSize := (fsize o.fileHandle).getD 0
    modifiedAt := o.modifiedAt }

/-- Build the grouped version for one partition.  The code recovers
`songId` and `versionName` by splitting the group key on `'_'` and taking
the first two fragments. -/
def mkVersionFromGroup (fsize : Nat → Option Nat) (groupKey : String)
    (groupVersions : List V1Version) (newId : Nat) : Version :=
  let segs := splitOnChar '_' groupKey
  let formats := groupVersions.map (v1ToFormat fsize)
  let selectedFormatIndex := findSmallestFormat formats
  { id := newId
    songId := parseIntNat (segs.getD 0 "")
    versionName := segs.getD 1 ""
    formats := formats
    selectedFormatIndex := selectedFormatIndex
    hasDurationMismatch := checkDurationMismatch formats
    rating := groupVersions.headI.rating
    createdAt := groupVersions.headI.createdAt
    modifiedAt := (formats.getD selectedFormatIndex default).modifiedAt }

/-- The migration's main loop: one new version row per group (ids from
the auto-increment counter), and the old-id-to-new-id map accumulated in
group order. -/
def processGroups (fsize : Nat → Option Nat) :
    List (String × List V1Version) → Nat →
      List Version × List (Nat × Nat) × Nat
  | [], nextId => ([], [], nextId)
  | (k, gs) :: rest, nextId =>
    (mkVersionFromGroup fsize k gs nextId ::
        (processGroups fsize rest (nextId + 1)).1,
      gs.map (fun o => (o.id, nextId)) ++
        (processGroups fsize rest (nextId + 1)).2.1,
      (processGroups fsize rest (nextId + 1)).2.2)

/-- Rewriting one dependent row for one (oldId, newId) map entry. -/
def remapRow {α : Type} (oldId newId : Nat) (r : DepRow α) : DepRow α :=
  if r.versionId = oldId then { r with versionId := newId } else r

/-- The migration's remap loop: for each map entry in insertion order,
point every row carrying the old id at the new id. -/
def remapTable {α : Type} (pairs : List (Nat × Nat))
    (rows : List (DepRow α)) : List (DepRow α) :=
  pairs.foldl (fun rs p => rs.map (remapRow p.1 p.2)) rows

/-- The net effect of the remap loop on one row's versionId: the map
entries are applied in order, each replacing the id when it matches. -/
def remapId (pairs : List (Nat × Nat)) (vid : Nat) : Nat :=
  pairs.foldl (fun v p => if v = p.1 then p.2 else v) vid

/-- What foreign-key-faithful remapping means for one dependent table:
the rows correspond pointwise, each keeps its payload, and each now
references a row of the new versions table whose formats contain the
file of the legacy version the row referenced before. -/
def RemappedTable {α : Type} (olds : List V1Version)
    (newVersions : List Version) (pre post : List (DepRow α)) : Prop :=
  List.Forall₂ (fun r r' =>
    r'.payload = r.payload ∧
    ∃ nv ∈ newVersions, nv.id = r'.versionId ∧
      ∀ o ∈ olds, o.id = r.versionId →
        o.fileName ∈ nv.formats.map (fun f => f.fileName)) pre post

/-- The whole 1-to-2 upgrade: group the legacy rows, emit one grouped
version per group, then remap every dependent table through the id map.
Returns the new versions table, the three remapped dependent tables and
the advanced id counter. -/
def migrateV1toV2 {α β γ : Type} (fsize : Nat → Option Nat)
    (olds : List V1Version) (tags : List (DepRow α))
    (notes : List (DepRow β)) (images : List (DepRow γ)) (nextId : Nat) :
    List Version × List (DepRow α) × List (DepRow β) × List (DepRow γ) × Nat :=
  let r := processGroups fsize (buildGroupsV1 olds) nextId
  (r.1, remapTable r.2.1 tags, remapTable r.2.1 notes,
    remapTable r.2.1 images, r.2.2)

/-- Sizes of a format list, for stating minimality. -/
def sizesOf (formats : List VersionFormat) : List Nat :=
  formats.map (fun f => f.fileSize)

/-! ## Concrete fixtures used by witnesses and counterexamples -/

/-- A store with nothing in it. -/
def emptyDB : DBState := ⟨[], [], [], [], [], [], 0, 0⟩

/-- Three formats with sizes 500000, 300000, 300000 (spec §8). -/
def exThreeSizes : List VersionFormat :=
  [⟨0, "a.wav", "wav", none, none, 500000, "t"⟩,
   ⟨1, "a.flac", "flac", none, none, 300000, "t"⟩,
   ⟨2, "a.mp3", "mp3", none, none, 300000, "t"⟩]

/-- Two formats with durations 100 and 94 seconds (spec §8). -/
def exDur94 : List VersionFormat :=
  [⟨0, "a.wav", "wav", none, some 100, 10, "t"⟩,
   ⟨1, "a.mp3", "mp3", none, some 94, 20, "t"⟩]

/-- Two formats with durations 100 and 96 seconds (spec §8). -/
def exDur96 : List VersionFormat :=
  [⟨0, "a.wav", "wav", none, some 100, 10, "t"⟩,
   ⟨1, "a.mp3", "mp3", none, some 96, 20, "t"⟩]

/-- A single format with a known duration. -/
def exDurSingle : List VersionFormat :=
  [⟨0, "a.wav", "wav", none, some 100, 10, "t"⟩]

/-- Two formats, neither with a known duration. -/
def exDurNone : List VersionFormat :=
  [⟨0, "a.wav", "wav", none, none, 10, "t"⟩,
   ⟨1, "a.mp3", "mp3", none, none, 20, "t"⟩]

/-- A file whose bytes parse but report no container: identification
fails without throwing, while a duration is known. -/
def exRawContainerless : RawFile := ⟨some ⟨none, some 100, none⟩, 4000, "T0"⟩

/-- A file whose bytes make the metadata parser throw. -/
def exRawParseFail : RawFile := ⟨none, 4000, "T0"⟩

/-- The one file of the C1 scenario. -/
def exHandle1 : FileHandle := ⟨"take1.mp3", 100⟩

/-- The format stored for that file when its version was first created,
under registry key 0. -/
def exFmt1 : VersionFormat := ⟨0, "take1.mp3", "mp3", some 320, some 180, 5000000, "T0"⟩

/-- The existing version holding that single format. -/
def exVersion1 : Version := ⟨1, 7, "take1", [exFmt1], 0, false, none, "T0", "T0"⟩

/-- The filesystem of the C1 scenario: the same unchanged file. -/
def exEnv1 : FileHandle → Option RawFile := fun h =>
  if h = exHandle1 then
    some ⟨some ⟨some "mp3", some 180, some 320000⟩, 5000000, "T0"⟩
  else none

/-- The store before the rescan: registry key 0 already resolves to the
file of the already-stored format. -/
def exDB1 : DBState := ⟨[], [exVersion1], [], [], [], [(0, exHandle1)], 1, 2⟩

/-- A legacy flat row whose base name contains an underscore. -/
def exLegacy2 : V1Version := ⟨1, 1, 0, "my_song.mp3", none, none, none, none, "c", "m"⟩

/-- A file-size lookup that always fails. -/
def exFsizeNone : Nat → Option Nat := fun _ => none

/-- Empty dependent tables for the migration fixtures. -/
def exNilTags : List (DepRow Nat) := []

/-- Empty notes table for the migration fixtures. -/
def exNilNotes : List (DepRow NoteData) := []

/-- Empty images table for the migration fixtures. -/
def exNilImages : List (DepRow ImageData) := []

/-- A version with two formats and a valid selected index. -/
def exVersion9 : Version :=
  ⟨1, 7, "take1",
   [⟨0, "take1.mp3", "mp3", none, none, 10, "t"⟩,
    ⟨1, "take1.wav", "wav", none, none, 20, "t"⟩], 0, false, none, "t", "t"⟩

/-- A store holding only `exVersion9`. -/
def exDB9 : DBState := ⟨[], [exVersion9], [], [], [], [], 0, 2⟩

/-- Two files sharing base name "take1" for the C7 witness. -/
def exHandle7a : FileHandle := ⟨"take1.mp3", 100⟩

/-- Second file of the C7 group. -/
def exHandle7b : FileHandle := ⟨"take1.flac", 101⟩

/-- A filesystem where the mp3 reads fine and the flac read throws. -/
def exEnv7 : FileHandle → Option RawFile := fun h =>
  if h = exHandle7a then
    some ⟨some ⟨some "mp3", some 180, some 320000⟩, 5000000, "T0"⟩
  else none

/-- The song row of the C8 scenario. -/
def exSong8 : Song := ⟨1, "mysong", 50, "t", none⟩

/-- First version of the C8 song. -/
def exVersion8a : Version :=
  ⟨10, 1, "take1", [⟨0, "take1.mp3", "mp3", none, none, 10, "t"⟩], 0, false,
   none, "t", "t"⟩

/-- Second version of the C8 song. -/
def exVersion8b : Version :=
  ⟨11, 1, "take2", [⟨1, "take2.mp3", "mp3", none, none, 10, "t"⟩], 0, false,
   none, "t", "t"⟩

/-- A store with one song, two versions, and tag links, notes and images
under each version (spec §8's cascade scenario). -/
def exDB8 : DBState :=
  ⟨[exSong8], [exVersion8a, exVersion8b],
   [⟨10, 3⟩, ⟨11, 3⟩],
   [⟨10, ⟨1, "n1", none, "t", "t"⟩⟩, ⟨10, ⟨2, "n2", none, "t", "t"⟩⟩,
    ⟨11, ⟨3, "n3", none, "t", "t"⟩⟩, ⟨11, ⟨4, "n4", none, "t", "t"⟩⟩],
   [⟨10, ⟨1, "img1.png", none, "t"⟩⟩, ⟨11, ⟨2, "img2.png", none, "t"⟩⟩],
   [], 0, 12⟩

/-- Two legacy rows forming one group plus one row of its own group. -/
def exOlds3 : List V1Version :=
  [⟨1, 4, 0, "take1.mp3", some 5, some 100, some 320, some "mp3", "c1", "m1"⟩,
   ⟨2, 4, 1, "take1.flac", none, some 100, none, some "flac", "c2", "m2"⟩,
   ⟨3, 4, 2, "take2.mp3", none, some 50, some 320, some "mp3", "c3", "m3"⟩]

/-- Notes referencing each of the three legacy rows. -/
def exNotes3 : List (DepRow NoteData) :=
  [⟨1, ⟨1, "n1", none, "t", "t"⟩⟩, ⟨2, ⟨2, "n2", none, "t", "t"⟩⟩,
   ⟨3, ⟨3, "n3", none, "t", "t"⟩⟩]

/-- Tag links referencing legacy rows 1 and 3. -/
def exTags3 : List (DepRow Nat) := [⟨1, 9⟩, ⟨3, 9⟩]

/-- Images referencing legacy row 2. -/
def exImages3 : List (DepRow ImageData) := [⟨2, ⟨1, "i.png", none, "t"⟩⟩]

/-! ## Lemmas about `findSmallestFormat` -/

theorem findSmallestAux_spec (L : List Nat) :
    ∀ (fs : List VersionFormat) (i bestIdx bestSize : Nat),
      L.drop i = sizesOf fs →
      bestIdx < i → bestIdx < L.length →
      L.getD bestIdx 0 = bestSize →
      (∀ j, j < i → j < L.length → bestSize ≤ L.getD j 0) →
      (∀ j, j < bestIdx → bestSize < L.getD j 0) →
      (findSmallestAux fs i bestIdx bestSize < L.length ∧
        (∀ j, j < L.length →
          L.getD (findSmallestAux fs i bestIdx bestSize) 0 ≤ L.getD j 0) ∧
        (∀ j, j < findSmallestAux fs i bestIdx bestSize →
          L.getD (findSmallestAux fs i bestIdx bestSize) 0 < L.getD j 0)) := by
  intro fs
  induction fs with
  | nil =>
    intro i bestIdx bestSize hdrop hlt hlen hval hmin hstrict
    have hdrop0 : L.drop i = [] := by simpa [sizesOf] using hdrop
    have hLlen : L.length ≤ i := List.drop_eq_nil_iff.mp hdrop0
    refine ⟨hlen, ?_, ?_⟩
    · intro j hj
      simp only [findSmallestAux, hval]
      exact hmin j (by omega) hj
    · intro j hj
      simp only [findSmallestAux] at hj ⊢
      rw [hval]
      exact hstrict j hj
  | cons f fs ih =>
    intro i bestIdx bestSize hdrop hlt hlen hval hmin hstrict
    have hil : i < L.length := by
      by_contra h
      push_neg at h
      rw [List.drop_eq_nil_of_le h] at hdrop
      simp [sizesOf] at hdrop
    have h2 : L.drop i = L.getD i 0 :: L.drop (i + 1) := by
      rw [List.getD_eq_getElem L 0 hil]
      exact List.drop_eq_getElem_cons hil
    have hmap : sizesOf (f :: fs) = f.fileSize :: sizesOf fs := rfl
    rw [h2, hmap] at hdrop
    injection hdrop with hLi hdrop'
    simp only [findSmallestAux]
    by_cases hcmp : f.fileSize < bestSize
    · simp only [if_pos hcmp]
      apply ih (i + 1) i f.fileSize hdrop' (by omega) hil hLi
      · intro j hj hjL
        rcases Nat.lt_or_ge j i with hji | hji
        · have := hmin j hji hjL
          omega
        · have : j = i := by omega
          subst this
          omega
      · intro j hj
        have hjL : j < L.length := by omega
        have := hmin j (by omega) hjL
        omega
    · simp only [if_neg hcmp]
      apply ih (i + 1) bestIdx bestSize hdrop' (by omega) hlen hval
      · intro j hj hjL
        rcases Nat.lt_or_ge j i with hji | hji
        · exact hmin j hji hjL
        · have : j = i := by omega
          subst this
          rw [hLi]
          omega
      · exact hstrict

theorem findSmallestFormat_spec (formats : List VersionFormat)
    (h : formats ≠ []) :
    findSmallestFormat formats < formats.length ∧
      (∀ j, j < formats.length →
        (sizesOf formats).getD (findSmallestFormat formats) 0 ≤
          (sizesOf formats).getD j 0) ∧
      (∀ j, j < findSmallestFormat formats →
        (sizesOf formats).getD (findSmallestFormat formats) 0 <
          (sizesOf formats).getD j 0) := by
  match formats with
  | [] => exact absurd rfl h
  | f0 :: rest =>
    have hlen : (sizesOf (f0 :: rest)).length = (f0 :: rest).length := by
      simp [sizesOf]
    have := findSmallestAux_spec (sizesOf (f0 :: rest)) rest 1 0 f0.fileSize
      (by simp [sizesOf]) (by omega) (by simp [sizesOf]) (by simp [sizesOf])
      (by
        intro j hj hjL
        have : j = 0 := by omega
        subst this
        simp [sizesOf])
      (by intro j hj; omega)
    simp only [findSmallestFormat]
    rw [hlen] at this
    exact this

/-- C4: for every non-empty formats list the Format Policy Engine selects
the index of the Format with minimum fileSize, ties resolving to the
earliest-occurring index (an equal size never displaces an earlier
minimum); in particular sizes [500000, 300000, 300000] select index 1. -/
theorem C4_selected_format_is_first_minimum (formats : List VersionFormat)
    (h : formats ≠ []) :
    (findSmallestFormat formats < formats.length ∧
      (∀ j, j < formats.length →
        (sizesOf formats).getD (findSmallestFormat formats) 0 ≤
          (sizesOf formats).getD j 0) ∧
      (∀ j, j < findSmallestFormat formats →
        (sizesOf formats).getD (findSmallestFormat formats) 0 <
          (sizesOf formats).getD j 0)) ∧
    findSmallestFormat exThreeSizes = 1 :=
  ⟨findSmallestFormat_spec formats h, by decide⟩

/-- Witness for C4 at the concrete size list [500000, 300000, 300000]. -/
theorem C4_witness :
    exThreeSizes ≠ [] ∧ findSmallestFormat exThreeSizes < exThreeSizes.length :=
  ⟨by decide, (C4_selected_format_is_first_minimum exThreeSizes (by decide)).1.1⟩

/-! ## Lemmas about `checkDurationMismatch` -/

theorem listMax_mem (d : ℚ) (ds : List ℚ) : listMax d ds ∈ d :: ds := by
  induction ds generalizing d with
  | nil => simp [listMax]
  | cons e ds ih =>
    simp only [listMax, List.foldl_cons]
    have h := ih (max d e)
    simp only [listMax] at h
    rcases List.mem_cons.mp h with h1 | h1
    · rw [h1]
      rcases max_choice d e with hm | hm <;> rw [hm] <;> simp
    · exact List.mem_cons_of_mem _ (List.mem_cons_of_mem _ h1)

theorem le_listMax (d : ℚ) (ds : List ℚ) : ∀ x ∈ d :: ds, x ≤ listMax d ds := by
  induction ds generalizing d with
  | nil =>
    intro x hx
    simp only [List.mem_singleton] at hx
    simp [listMax, hx]
  | cons e ds ih =>
    intro x hx
    have h := ih (max d e)
    simp only [listMax, List.foldl_cons] at h ⊢
    have hhead : max d e ≤ List.foldl max (max d e) ds :=
      h (max d e) (List.mem_cons_self _ _)
    rcases List.mem_cons.mp hx with h1 | h1
    · rw [h1]
      exact le_trans (le_max_left d e) hhead
    · rcases List.mem_cons.mp h1 with h2 | h2
      · rw [h2]
        exact le_trans (le_max_right d e) hhead
      · exact h x (List.mem_cons_of_mem _ h2)

theorem listMin_mem (d : ℚ) (ds : List ℚ) : listMin d ds ∈ d :: ds := by
  induction ds generalizing d with
  | nil => simp [listMin]
  | cons e ds ih =>
    simp only [listMin, List.foldl_cons]
    have h := ih (min d e)
    simp only [listMin] at h
    rcases List.mem_cons.mp h with h1 | h1
    · rw [h1]
      rcases min_choice d e with hm | hm <;> rw [hm] <;> simp
    · exact List.mem_cons_of_mem _ (List.mem_cons_of_mem _ h1)

theorem listMin_le (d : ℚ) (ds : List ℚ) : ∀ x ∈ d :: ds, listMin d ds ≤ x := by
  induction ds generalizing d with
  | nil =>
    intro x hx
    simp only [List.mem_singleton] at hx
    simp [listMin, hx]
  | cons e ds ih =>
    intro x hx
    have h := ih (min d e)
    simp only [listMin, List.foldl_cons] at h ⊢
    have hhead : List.foldl min (min d e) ds ≤ min d e :=
      h (min d e) (List.mem_cons_self _ _)
    rcases List.mem_cons.mp hx with h1 | h1
    · rw [h1]
      exact le_trans hhead (min_le_left d e)
    · rcases List.mem_cons.mp h1 with h2 | h2
      · rw [h2]
        exact le_trans hhead (min_le_right d e)
      · exact h x (List.mem_cons_of_mem _ h2)

/-- C5: `hasDurationMismatch` is false with fewer than two known
durations; with at least two, it is true exactly when the relative
spread of the known durations exceeds 5%; durations [100, 94] flag,
[100, 96] do not, and zero or one known durations never flag. -/
theorem C5_duration_mismatch_characterisation (formats : List VersionFormat) :
    (((formats.map (fun f => f.duration)).filterMap id).length < 2 →
      checkDurationMismatch formats = false) ∧
    (∀ d ds, (formats.map (fun f => f.duration)).filterMap id = d :: ds →
      ds ≠ [] →
      ∃ mx mn, mx ∈ d :: ds ∧ mn ∈ d :: ds ∧
        (∀ x ∈ d :: ds, x ≤ mx) ∧ (∀ x ∈ d :: ds, mn ≤ x) ∧
        (checkDurationMismatch formats = true ↔ (mx - mn) / mx > 5 / 100)) ∧
    checkDurationMismatch exDur94 = true ∧
    checkDurationMismatch exDur96 = false ∧
    checkDurationMismatch exDurSingle = false ∧
    checkDurationMismatch exDurNone = false := by
  refine ⟨?_, ?_,
    by norm_num [checkDurationMismatch, exDur94, listMax, listMin,
      List.filterMap_cons, max_def, min_def],
    by norm_num [checkDurationMismatch, exDur96, listMax, listMin,
      List.filterMap_cons, max_def, min_def],
    by norm_num [checkDurationMismatch, exDurSingle],
    by norm_num [checkDurationMismatch, exDurNone]⟩
  · intro hlt
    unfold checkDurationMismatch
    split
    · rfl
    · rw [if_pos hlt]
  · intro d ds hds hne
    refine ⟨listMax d ds, listMin d ds, listMax_mem d ds, listMin_mem d ds,
      le_listMax d ds, listMin_le d ds, ?_⟩
    have hlen2 : 2 ≤ ((formats.map (fun f => f.duration)).filterMap id).length := by
      rw [hds]
      cases ds with
      | nil => exact absurd rfl hne
      | cons e es => simp

    have hflen : ((formats.map (fun f => f.duration)).filterMap id).length ≤
        formats.length := by
      calc ((formats.map (fun f => f.duration)).filterMap id).length
          ≤ (formats.map (fun f => f.duration)).length :=
            List.length_filterMap_le _ _
        _ = formats.length := List.length_map _ _
    unfold checkDurationMismatch
    rw [if_neg (by omega), hds, if_neg (by
      rw [hds] at hlen2
      omega)]
    simp only [listMax, listMin]
    constructor
    · intro h
      exact of_decide_eq_true h
    · intro h
      exact decide_eq_true h

/-- Witness for C5 at durations [100, 94]. -/
theorem C5_witness :
    ∃ mx mn, mx ∈ (100 : ℚ) :: [94] ∧ mn ∈ (100 : ℚ) :: [94] ∧
      (∀ x ∈ (100 : ℚ) :: [94], x ≤ mx) ∧ (∀ x ∈ (100 : ℚ) :: [94], mn ≤ x) ∧
      (checkDurationMismatch exDur94 = true ↔ (mx - mn) / mx > 5 / 100) :=
  (C5_duration_mismatch_characterisation exDur94).2.1 100 [94]
    (by decide) (by decide)

/-- C6 counterexample: on the file "a.MP3" whose bytes parse but report
no container, the fallback format is "MP3" — the extension with its
original casing, not lower-cased — and the duration is not null. -/
theorem C6_counterexample :
    (extractAudioMetadata exRawContainerless "a.MP3").format = "MP3" ∧
    "MP3" ≠ "mp3" ∧
    (extractAudioMetadata exRawContainerless "a.MP3").duration = some 100 :=
  ⟨by decide, by decide, by decide⟩

/-- C6 amended: the extractor never propagates a parse failure; when the
parse throws, the result is exactly null duration, null bitrate and the
extension after the last dot with its casing preserved; when container
identification fails without throwing, the format falls back to that
same extension; on a successful parse, duration and bitrate are null
exactly when the parsed value is absent or zero, a present nonzero
duration is kept, and a present nonzero bitrate is rounded to the
nearest kbps; and a parse failure still yields a format record (it
never aborts the caller). -/
theorem C6_extractor_fallbacks (r : RawFile) (name : String) :
    (r.parse = none →
      extractAudioMetadata r name =
        { duration := none, bitrate := none, format := extAfterLastDot name }) ∧
    (∀ m, r.parse = some m →
      ((m.container = none ∨ m.container = some "") →
        (extractAudioMetadata r name).format = extAfterLastDot name) ∧
      ((extractAudioMetadata r name).duration = none ↔
        (m.duration = none ∨ m.duration = some 0)) ∧
      (∀ d, m.duration = some d → ¬ d = 0 →
        (extractAudioMetadata r name).duration = some d) ∧
      ((extractAudioMetadata r name).bitrate = none ↔
        (m.bitrate = none ∨ m.bitrate = some 0)) ∧
      (∀ b, m.bitrate = some b → ¬ b = 0 →
        (extractAudioMetadata r name).bitrate = some (jsRound (b / 1000)))) ∧
    (∀ (env : FileHandle → Option RawFile) (h : FileHandle) (db : DBState),
      env h = some r → (extractFormatMetadata env h db).1 ≠ none) := by
  refine ⟨?_, ?_, ?_⟩
  · intro hp
    simp [extractAudioMetadata, hp]
  · intro m hp
    refine ⟨?_, ?_, ?_, ?_, ?_⟩
    · intro hc
      rcases hc with hc | hc <;> simp [extractAudioMetadata, hp, hc]
    · cases hd : m.duration with
      | none => simp [extractAudioMetadata, hp, hd]
      | some d =>
        by_cases hd0 : d = 0 <;> simp [extractAudioMetadata, hp, hd, hd0]
    · intro d hd hd0
      simp [extractAudioMetadata, hp, hd, hd0]
    · cases hb : m.bitrate with
      | none => simp [extractAudioMetadata, hp, hb]
      | some b =>
        by_cases hb0 : b = 0 <;> simp [extractAudioMetadata, hp, hb, hb0]
    · intro b hb hb0
      simp [extractAudioMetadata, hp, hb, hb0]
  · intro env h db henv
    simp [extractFormatMetadata, henv]

/-- Witness for C6 at a file named "a.MP3" whose parse throws. -/
theorem C6_witness :
    extractAudioMetadata exRawParseFail "a.MP3" =
      { duration := none, bitrate := none, format := extAfterLastDot "a.MP3" } :=
  (C6_extractor_fallbacks exRawParseFail "a.MP3").1 rfl

/-- Keys below the allocation counter are never found at a key the
counter has reached. -/
theorem find_fresh_none (db : DBState) (k : Nat) (hwf : RegistryWF db)
    (hk : db.nextKey ≤ k) :
    db.fileHandles.find? (fun p => p.1 == k) = none := by
  rw [List.find?_eq_none]
  intro x hx
  have := hwf x hx
  have hne : x.1 ≠ k := by omega
  simp [hne]

/-- C10: handle registration is not deterministic across calls — two
calls of serializeHandle on the same handle insert two new registry rows
and return distinct indirection keys, both of which resolve to the
handle. -/
theorem C10_serializeHandle_always_fresh (db : DBState) (h : FileHandle)
    (hwf : RegistryWF db) :
    (serializeHandle h db).1 ≠
      (serializeHandle h (serializeHandle h db).2).1 ∧
    deserializeHandle (serializeHandle h db).1
      (serializeHandle h (serializeHandle h db).2).2 = some h ∧
    deserializeHandle (serializeHandle h (serializeHandle h db).2).1
      (serializeHandle h (serializeHandle h db).2).2 = some h ∧
    (serializeHandle h (serializeHandle h db).2).2.fileHandles.length =
      db.fileHandles.length + 2 := by
  have h1 : db.fileHandles.find? (fun p => p.1 == db.nextKey) = none :=
    find_fresh_none db db.nextKey hwf le_rfl
  have h2 : db.fileHandles.find? (fun p => p.1 == db.nextKey + 1) = none :=
    find_fresh_none db (db.nextKey + 1) hwf (by omega)
  refine ⟨by simp [serializeHandle], ?_, ?_, by simp [serializeHandle]⟩
  · simp only [serializeHandle, deserializeHandle, List.append_assoc,
      List.find?_append, h1, Option.none_orElse]
    simp
  · simp only [serializeHandle, deserializeHandle, List.append_assoc,
      List.find?_append, h2, Option.none_orElse]
    have : ((db.nextKey : Nat) == db.nextKey + 1) = false := by
      simp only [beq_eq_false_iff_ne, ne_eq]
      omega
    simp [List.find?, this]

/-- Witness for C10 at the empty store. -/
theorem C10_witness :
    RegistryWF emptyDB ∧
    (serializeHandle exHandle1 emptyDB).1 ≠
      (serializeHandle exHandle1 (serializeHandle exHandle1 emptyDB).2).1 :=
  ⟨by simp [RegistryWF, emptyDB],
    (C10_serializeHandle_always_fresh emptyDB exHandle1
      (by simp [RegistryWF, emptyDB])).1⟩

/-- C1: the rescan dedup cannot work.  In the concrete scenario the store
holds one version for "take1" whose only format was registered under key
0, and key 0 still resolves to the very file the rescan rediscovers;
yet the rescan allocates a fresh key for the candidate, misses the
stored key set, and writes the version back with a duplicate format and
a new modifiedAt — where the spec says the file is skipped and no write
occurs. -/
theorem C1_rescan_duplicates_existing_file :
    deserializeHandle exFmt1.fileHandle exDB1 = some exHandle1 ∧
    exDB1.versions = [exVersion1] ∧
    exVersion1.formats.map (fun f => f.fileName) = ["take1.mp3"] ∧
    exVersion1.modifiedAt = "T0" ∧
    ∃ v ∈ (scanAndAddAudioFiles exEnv1 7 [exHandle1] "T2" exDB1).versions,
      v.id = exVersion1.id ∧
      v.formats.map (fun f => f.fileName) = ["take1.mp3", "take1.mp3"] ∧
      v.modifiedAt = "T2" := by
  refine ⟨by decide, by decide, by decide, by decide, ?_⟩
  decide

/-- C2: the 1-to-2 migration recovers the version name by splitting the
group key on underscores and keeping only the second fragment, so a
legacy file "my_song.mp3" (base name "my_song") migrates into a Version
named "my" — not the base name the Grouper derives, contradicting the
partition-faithful naming the spec states. -/
theorem C2_migration_truncates_underscored_base_names :
    getBaseFileName "my_song.mp3" = "my_song" ∧
    ∃ v ∈ (migrateV1toV2 exFsizeNone [exLegacy2] exNilTags exNilNotes
        exNilImages 2).1,
      v.songId = 1 ∧ v.versionName = "my" ∧
      v.versionName ≠ getBaseFileName "my_song.mp3" ∧
      v.formats.map (fun f => f.fileName) = ["my_song.mp3"] := by
  refine ⟨by decide, ?_⟩
  decide

/-! ## Frame lemmas for the scanner loops -/

theorem extractFormatMetadata_versions (env : FileHandle → Option RawFile)
    (h : FileHandle) (db : DBState) :
    (extractFormatMetadata env h db).2.versions = db.versions := by
  unfold extractFormatMetadata
  cases env h <;> rfl

theorem extractFormatMetadata_none_iff (env : FileHandle → Option RawFile)
    (h : FileHandle) (db : DBState) :
    (extractFormatMetadata env h db).1 = none ↔ env h = none := by
  unfold extractFormatMetadata
  cases env h <;> simp

theorem extractFormatMetadata_fileName (env : FileHandle → Option RawFile)
    (h : FileHandle) (db : DBState) :
    ∀ fd, (extractFormatMetadata env h db).1 = some fd → fd.fileName = h.name := by
  intro fd hfd
  unfold extractFormatMetadata at hfd
  cases henv : env h with
  | none => rw [henv] at hfd; simp at hfd
  | some r =>
    rw [henv] at hfd
    simp only [Option.some.injEq] at hfd
    rw [← hfd]

theorem extractLoop_versions (env : FileHandle → Option RawFile)
    (handles : List FileHandle) :
    ∀ acc db, (extractLoop env handles acc db).2.versions = db.versions := by
  induction handles with
  | nil => intro acc db; rfl
  | cons h hs ih =>
    intro acc db
    unfold extractLoop
    cases hr : (extractFormatMetadata env h db).1 with
    | some fd =>
      dsimp only
      rw [ih, extractFormatMetadata_versions]
    | none =>
      dsimp only
      rw [ih, extractFormatMetadata_versions]

theorem mergeLoop_versions (env : FileHandle → Option RawFile)
    (keys : List Nat) (handles : List FileHandle) :
    ∀ acc flag db,
      (mergeLoop env keys handles acc flag db).2.2.versions = db.versions := by
  induction handles with
  | nil => intro acc flag db; rfl
  | cons h hs ih =>
    intro acc flag db
    unfold mergeLoop
    by_cases hmem : (serializeHandle h db).1 ∈ keys
    · rw [if_pos hmem, ih]
      rfl
    · rw [if_neg hmem]
      cases hr : (extractFormatMetadata env h (serializeHandle h db).2).1 with
      | some fd =>
        dsimp only
        rw [ih, extractFormatMetadata_versions]
        rfl
      | none =>
        dsimp only
        rw [ih, extractFormatMetadata_versions]
        rfl

theorem mergeLoop_acc_grows (env : FileHandle → Option RawFile)
    (keys : List Nat) (handles : List FileHandle) :
    ∀ acc flag db, ∃ extra,
      (mergeLoop env keys handles acc flag db).1 = acc ++ extra := by
  induction handles with
  | nil => intro acc flag db; exact ⟨[], by simp [mergeLoop]⟩
  | cons h hs ih =>
    intro acc flag db
    unfold mergeLoop
    by_cases hmem : (serializeHandle h db).1 ∈ keys
    · rw [if_pos hmem]; exact ih acc flag _
    · rw [if_neg hmem]
      cases hr : (extractFormatMetadata env h (serializeHandle h db).2).1 with
      | some fd =>
        dsimp only
        obtain ⟨extra, hex⟩ := ih (acc ++ [fd]) true
          (extractFormatMetadata env h (serializeHandle h db).2).2
        exact ⟨fd :: extra, by rw [hex]; simp⟩
      | none =>
        dsimp only
        exact ih acc flag _

/-- C9 counterexample: the change-selected-format command persists an
out-of-range index — on a 2-format version, requesting index 5 leaves a
stored version with selectedFormatIndex = 5 ≥ 2. -/
theorem C9_counterexample :
    ∃ v ∈ (updateVersionFormat exDB9 1 5).versions,
      v.formats.length = 2 ∧ v.selectedFormatIndex = 5 ∧
      ¬ v.selectedFormatIndex < v.formats.length := by
  decide

/-- C9 amended: versions written by the Grouper's creation path and by
the rescan merge satisfy 0 ≤ selectedFormatIndex < formats.length and
carry policy outputs recomputed from the written formats list in the
same write; the change-selected-format command persists the given index
unvalidated, so after it the bound holds only when the supplied index is
within the target's formats range. -/
theorem C9_policy_invariant_amended :
    (∀ (env : FileHandle → Option RawFile) (sid : Nat) (vname : String)
        (handles : List FileHandle) (now : String) (db : DBState),
      ∀ v ∈ (createVersionWithFormats env sid vname handles now db).versions,
        v ∈ db.versions ∨
          (v.selectedFormatIndex < v.formats.length ∧
            v.selectedFormatIndex = findSmallestFormat v.formats ∧
            v.hasDurationMismatch = checkDurationMismatch v.formats)) ∧
    (∀ (env : FileHandle → Option RawFile) (version : Version)
        (handles : List FileHandle) (now : String) (db : DBState),
      version.formats ≠ [] →
      ∀ v ∈ (addNewFormatsToVersion env version handles now db).versions,
        v ∈ db.versions ∨
          (v.selectedFormatIndex < v.formats.length ∧
            v.selectedFormatIndex = findSmallestFormat v.formats ∧
            v.hasDurationMismatch = checkDurationMismatch v.formats)) ∧
    (∀ (db : DBState) (vid idx : Nat),
      (∀ v ∈ db.versions, v.id = vid → idx < v.formats.length) →
      ∀ v ∈ (updateVersionFormat db vid idx).versions,
        v ∈ db.versions ∨ v.selectedFormatIndex < v.formats.length) := by
  refine ⟨?_, ?_, ?_⟩
  · intro env sid vname handles now db v hv
    unfold createVersionWithFormats at hv
    cases hE : extractLoop env handles [] db with
    | mk formats db' =>
      have hver : db'.versions = db.versions := by
        have := extractLoop_versions env handles [] db
        rw [hE] at this
        exact this
      rw [hE] at hv
      cases formats with
      | nil =>
        simp only at hv
        rw [hver] at hv
        exact Or.inl hv
      | cons f0 rest =>
        simp only at hv
        rw [List.mem_append] at hv
        rcases hv with hv | hv
        · rw [hver] at hv
          exact Or.inl hv
        · rw [List.mem_singleton] at hv
          subst hv
          refine Or.inr ⟨?_, rfl, rfl⟩
          exact (findSmallestFormat_spec (f0 :: rest) (by simp)).1
  · intro env version handles now db hne v hv
    unfold addNewFormatsToVersion at hv
    have hver : (mergeLoop env (version.formats.map (fun f => f.fileHandle))
        handles version.formats false db).2.2.versions = db.versions :=
      mergeLoop_versions env _ handles _ _ db
    by_cases hflag : (mergeLoop env (version.formats.map (fun f => f.fileHandle))
        handles version.formats false db).2.1
    · rw [if_pos hflag] at hv
      simp only [updateVersionRow] at hv
      rw [hver] at hv
      rw [List.mem_map] at hv
      obtain ⟨w, hw, hv⟩ := hv
      by_cases hid : w.id = version.id
      · rw [if_pos hid] at hv
        subst hv
        obtain ⟨extra, hex⟩ := mergeLoop_acc_grows env
          (version.formats.map (fun f => f.fileHandle)) handles
          version.formats false db
        have hnen : (mergeLoop env (version.formats.map (fun f => f.fileHandle))
            handles version.formats false db).1 ≠ [] := by
          rw [hex]
          intro hcon
          rcases List.append_eq_nil.mp hcon with ⟨h1, _⟩
          exact hne h1
        refine Or.inr ⟨?_, rfl, rfl⟩
        exact (findSmallestFormat_spec _ hnen).1
      · rw [if_neg hid] at hv
        subst hv
        exact Or.inl hw
    · rw [if_neg hflag] at hv
      rw [hver] at hv
      exact Or.inl hv
  · intro db vid idx hbound v hv
    unfold updateVersionFormat updateVersionRow at hv
    rw [List.mem_map] at hv
    obtain ⟨w, hw, hv⟩ := hv
    by_cases hid : w.id = vid
    · rw [if_pos hid] at hv
      subst hv
      exact Or.inr (hbound w hw hid)
    · rw [if_neg hid] at hv
      subst hv
      exact Or.inl hw

/-- Witness for C9's amended claim: an in-range index keeps the bound. -/
theorem C9_witness :
    (∀ v ∈ exDB9.versions, v.id = 1 → 1 < v.formats.length) ∧
    ∀ v ∈ (updateVersionFormat exDB9 1 1).versions,
      v ∈ exDB9.versions ∨ v.selectedFormatIndex < v.formats.length :=
  ⟨by decide, C9_policy_invariant_amended.2.2 exDB9 1 1 (by decide)⟩

/-! ## Lemmas for the grouper -/

theorem groupInsert_fold_same (b : String) (hs : List FileHandle) :
    ∀ acc : List FileHandle, (∀ h ∈ hs, getBaseFileName h.name = b) →
      hs.foldl (fun m h => groupInsert m (getBaseFileName h.name) h)
        [(b, acc)] = [(b, acc ++ hs)] := by
  induction hs with
  | nil => intro acc _; simp
  | cons h hs ih =>
    intro acc hall
    have hb : getBaseFileName h.name = b := hall h (List.mem_cons_self _ _)
    simp only [List.foldl_cons, hb]
    have hstep : groupInsert [(b, acc)] b h = [(b, acc ++ [h])] := by
      simp [groupInsert]
    rw [hstep, ih (acc ++ [h]) (fun h' hh => hall h' (List.mem_cons_of_mem _ hh))]
    simp

theorem groupFiles_all_same (b : String) (handles : List FileHandle)
    (hne : handles ≠ [])
    (hbase : ∀ h ∈ handles, getBaseFileName h.name = b) :
    groupFiles handles = [(b, handles)] := by
  cases handles with
  | nil => exact absurd rfl hne
  | cons h hs =>
    unfold groupFiles
    simp only [List.foldl_cons]
    have hb : getBaseFileName h.name = b := hbase h (List.mem_cons_self _ _)
    rw [hb]
    have hstep : groupInsert [] b h = [(b, [h])] := rfl
    rw [hstep,
      groupInsert_fold_same b hs [h]
        (fun h' hh => hbase h' (List.mem_cons_of_mem _ hh))]
    simp

theorem extractLoop_fileNames (env : FileHandle → Option RawFile)
    (handles : List FileHandle) :
    ∀ acc db,
      (extractLoop env handles acc db).1.map (fun f => f.fileName) =
        acc.map (fun f => f.fileName) ++
          (handles.filter (fun h => (env h).isSome)).map (fun h => h.name) := by
  induction handles with
  | nil => intro acc db; simp [extractLoop]
  | cons h hs ih =>
    intro acc db
    unfold extractLoop
    cases hr : (extractFormatMetadata env h db).1 with
    | some fd =>
      dsimp only
      rw [ih]
      have hname := extractFormatMetadata_fileName env h db fd hr
      have hsome : (env h).isSome = true := by
        rcases henv : env h with _ | r
        · rw [(extractFormatMetadata_none_iff env h db).mpr henv] at hr
          cases hr
        · rfl
      simp [List.filter_cons, hsome, hname]
    | none =>
      dsimp only
      rw [ih]
      have hnone : env h = none := (extractFormatMetadata_none_iff env h db).mp hr
      have hsome : (env h).isSome = false := by rw [hnone]; rfl
      simp [List.filter_cons, hsome]

/-- C7: for a scan whose files all share one base name and meet no
existing version, the Grouper creates exactly one Version with one
Format per successfully extracted file in scan order, files whose
extraction throws are excluded, and a group whose extractions all fail
creates no Version at all. -/
theorem C7_grouper_one_version_per_group (env : FileHandle → Option RawFile)
    (songId : Nat) (b : String) (handles : List FileHandle) (now : String)
    (db : DBState)
    (hne : handles ≠ [])
    (hbase : ∀ h ∈ handles, getBaseFileName h.name = b)
    (hnoex : db.versions.find?
      (fun v => v.songId == songId && v.versionName == b) = none) :
    groupFiles handles = [(b, handles)] ∧
    ((∀ h ∈ handles, env h = none) →
      (scanAndAddAudioFiles env songId handles now db).versions = db.versions) ∧
    ((∃ h ∈ handles, env h ≠ none) →
      ∃ v, (scanAndAddAudioFiles env songId handles now db).versions =
          db.versions ++ [v] ∧
        v.songId = songId ∧ v.versionName = b ∧ v.rating = none ∧
        v.createdAt = now ∧
        v.formats.map (fun f => f.fileName) =
          (handles.filter (fun h => (env h).isSome)).map (fun h => h.name)) := by
  have hgroup : groupFiles handles = [(b, handles)] :=
    groupFiles_all_same b handles hne hbase
  have hscan : scanAndAddAudioFiles env songId handles now db =
      createVersionWithFormats env songId b handles now db := by
    unfold scanAndAddAudioFiles
    rw [hgroup]
    simp only [List.foldl_cons, List.foldl_nil, hnoex]
  have hmap := extractLoop_fileNames env handles [] db
  simp only [List.map_nil, List.nil_append] at hmap
  have hver := extractLoop_versions env handles [] db
  refine ⟨hgroup, ?_, ?_⟩
  · intro hall
    have hfilter : handles.filter (fun h => (env h).isSome) = [] := by
      rw [List.filter_eq_nil_iff]
      intro h hh
      rw [hall h hh]
      simp
    rw [hscan]
    unfold createVersionWithFormats
    cases hE : extractLoop env handles [] db with
    | mk formats db2 =>
      cases hf : formats with
      | nil =>
        dsimp only
        rw [hE] at hver
        exact hver
      | cons f0 rest =>
        rw [hE, hf] at hmap
        rw [hfilter] at hmap
        simp at hmap
  · intro hsome
    obtain ⟨h0, hh0, henv0⟩ := hsome
    have hfilter : handles.filter (fun h => (env h).isSome) ≠ [] := by
      intro hcon
      have hmem : h0 ∈ handles.filter (fun h => (env h).isSome) := by
        rw [List.mem_filter]
        refine ⟨hh0, ?_⟩
        cases hx : env h0 with
        | none => exact absurd hx henv0
        | some r => rfl
      rw [hcon] at hmem
      cases hmem
    rw [hscan]
    unfold createVersionWithFormats
    cases hE : extractLoop env handles [] db with
    | mk formats db2 =>
      rw [hE] at hmap hver
      simp only at hmap hver
      cases hf : formats with
      | nil =>
        rw [hf] at hmap
        simp only [List.map_nil] at hmap
        have hfe : handles.filter (fun h => (env h).isSome) = [] :=
          List.map_eq_nil_iff.mp hmap.symm
        exact absurd hfe hfilter
      | cons f0 rest =>
        rw [hf] at hmap
        dsimp only
        refine ⟨⟨db2.nextVersionId, songId, b, f0 :: rest,
            findSmallestFormat (f0 :: rest), checkDurationMismatch (f0 :: rest),
            none, now,
            ((f0 :: rest).getD (findSmallestFormat (f0 :: rest)) f0).modifiedAt⟩,
          ?_, rfl, rfl, rfl, rfl, ?_⟩
        · rw [hver]
        · exact hmap

/-- Witness for C7: the "take1" group with one readable and one failing
file on an empty store. -/
theorem C7_witness :
    ∃ v, (scanAndAddAudioFiles exEnv7 7 [exHandle7a, exHandle7b] "T1"
        emptyDB).versions = emptyDB.versions ++ [v] ∧
      v.songId = 7 ∧ v.versionName = "take1" ∧ v.rating = none ∧
      v.createdAt = "T1" ∧
      v.formats.map (fun f => f.fileName) =
        ([exHandle7a, exHandle7b].filter
          (fun h => (exEnv7 h).isSome)).map (fun h => h.name) :=
  (C7_grouper_one_version_per_group exEnv7 7 "take1" [exHandle7a, exHandle7b]
    "T1" emptyDB (by decide) (by decide) (by decide)).2.2
    ⟨exHandle7a, by decide, by decide⟩

/-! ## Lemmas for the cascade hooks -/

theorem filter_ne_eq_nil {α : Type} (rows : List α) (f : α → Nat) (k : Nat) :
    (rows.filter (fun a => f a != k)).filter (fun a => f a == k) = [] := by
  rw [List.filter_filter, List.filter_eq_nil_iff]
  intro a _
  by_cases hx : f a = k <;> simp [hx]

theorem cascadeFold_versionTags (doomed : List Version) :
    ∀ db : DBState,
      (doomed.foldl (fun d v => deleteVersionDependents d v.id) db).versionTags =
        db.versionTags.filter
          (fun t => doomed.all (fun v => t.versionId != v.id)) := by
  induction doomed with
  | nil => intro db; simp
  | cons v vs ih =>
    intro db
    simp only [List.foldl_cons]
    rw [ih]
    show (db.versionTags.filter (fun t => t.versionId != v.id)).filter
        (fun t => vs.all (fun w => t.versionId != w.id)) = _
    rw [List.filter_filter]
    apply List.filter_congr
    intro t _
    simp only [List.all_cons]
    exact Bool.and_comm _ _

theorem cascadeFold_notes (doomed : List Version) :
    ∀ db : DBState,
      (doomed.foldl (fun d v => deleteVersionDependents d v.id) db).notes =
        db.notes.filter (fun t => doomed.all (fun v => t.versionId != v.id)) := by
  induction doomed with
  | nil => intro db; simp
  | cons v vs ih =>
    intro db
    simp only [List.foldl_cons]
    rw [ih]
    show (db.notes.filter (fun t => t.versionId != v.id)).filter
        (fun t => vs.all (fun w => t.versionId != w.id)) = _
    rw [List.filter_filter]
    apply List.filter_congr
    intro t _
    simp only [List.all_cons]
    exact Bool.and_comm _ _

theorem cascadeFold_images (doomed : List Version) :
    ∀ db : DBState,
      (doomed.foldl (fun d v => deleteVersionDependents d v.id) db).images =
        db.images.filter (fun t => doomed.all (fun v => t.versionId != v.id)) := by
  induction doomed with
  | nil => intro db; simp
  | cons v vs ih =>
    intro db
    simp only [List.foldl_cons]
    rw [ih]
    show (db.images.filter (fun t => t.versionId != v.id)).filter
        (fun t => vs.all (fun w => t.versionId != w.id)) = _
    rw [List.filter_filter]
    apply List.filter_congr
    intro t _
    simp only [List.all_cons]
    exact Bool.and_comm _ _

theorem cascadeFold_versions (doomed : List Version) :
    ∀ db : DBState,
      (doomed.foldl (fun d v => deleteVersionDependents d v.id) db).versions =
        db.versions := by
  induction doomed with
  | nil => intro db; rfl
  | cons v vs ih =>
    intro db
    simp only [List.foldl_cons]
    rw [ih]
    rfl

theorem cascadeFold_songs (doomed : List Version) :
    ∀ db : DBState,
      (doomed.foldl (fun d v => deleteVersionDependents d v.id) db).songs =
        db.songs := by
  induction doomed with
  | nil => intro db; rfl
  | cons v vs ih =>
    intro db
    simp only [List.foldl_cons]
    rw [ih]
    rfl

/-- C8: deleting a Version deletes every dependent VersionTag, Note and
Image row in the same logical operation; deleting a Song deletes all its
Versions first (firing those cascades) and then the Song row, so every
query for the song, its versions or their dependents returns empty. -/
theorem C8_cascade_delete (db : DBState) (sid vid : Nat) :
    ((∃ v ∈ db.versions, v.id = vid) →
      (deleteVersionRow db vid).versionTags.filter
        (fun t => t.versionId == vid) = [] ∧
      (deleteVersionRow db vid).notes.filter
        (fun t => t.versionId == vid) = [] ∧
      (deleteVersionRow db vid).images.filter
        (fun t => t.versionId == vid) = [] ∧
      (deleteVersionRow db vid).versions.filter
        (fun v => v.id == vid) = []) ∧
    ((∃ s ∈ db.songs, s.id = sid) →
      (removeSong db sid).songs.filter (fun s => s.id == sid) = [] ∧
      (removeSong db sid).versions.filter (fun v => v.songId == sid) = [] ∧
      (∀ v0 ∈ db.versions, v0.songId = sid →
        (removeSong db sid).versionTags.filter
          (fun t => t.versionId == v0.id) = [] ∧
        (removeSong db sid).notes.filter
          (fun t => t.versionId == v0.id) = [] ∧
        (removeSong db sid).images.filter
          (fun t => t.versionId == v0.id) = [])) := by
  constructor
  · rintro ⟨v, hv, hvid⟩
    have hfind : (db.versions.find? (fun w => w.id == vid)).isSome := by
      rw [List.find?_isSome]
      exact ⟨v, hv, by simp [hvid]⟩
    obtain ⟨w, hw⟩ := Option.isSome_iff_exists.mp hfind
    have hwid : w.id = vid := by
      have := List.find?_some hw
      simpa using this
    unfold deleteVersionRow
    rw [hw]
    dsimp only [deleteVersionDependents]
    rw [hwid]
    exact ⟨filter_ne_eq_nil _ _ _, filter_ne_eq_nil _ _ _,
      filter_ne_eq_nil _ _ _, filter_ne_eq_nil _ _ _⟩
  · rintro ⟨s, hs, hsid⟩
    have hfind : (db.songs.find? (fun t => t.id == sid)).isSome := by
      rw [List.find?_isSome]
      exact ⟨s, hs, by simp [hsid]⟩
    obtain ⟨w, hw⟩ := Option.isSome_iff_exists.mp hfind
    have hwid : w.id = sid := by
      have := List.find?_some hw
      simpa using this
    unfold removeSong
    rw [hw]
    dsimp only
    rw [cascadeFold_songs, cascadeFold_versions]
    refine ⟨?_, ?_, ?_⟩
    · exact filter_ne_eq_nil _ (fun t : Song => t.id) _
    · rw [hwid]
      exact filter_ne_eq_nil _ (fun v : Version => v.songId) _
    · intro v0 hv0 hv0sid
      have hv0doomed : v0 ∈ db.versions.filter (fun v => v.songId == w.id) := by
        rw [List.mem_filter]
        exact ⟨hv0, by simp [hv0sid, hwid]⟩
      rw [cascadeFold_versionTags, cascadeFold_notes, cascadeFold_images]
      refine ⟨?_, ?_, ?_⟩ <;>
      · rw [List.filter_eq_nil_iff]
        intro t ht
        rw [List.mem_filter] at ht
        have hall := List.all_eq_true.mp ht.2 v0 hv0doomed
        intro hbeq
        rw [beq_iff_eq] at hbeq
        rw [hbeq] at hall
        simp at hall

/-- Witness for C8: deleting the song of `exDB8` empties its versions
and the dependents of version 10. -/
theorem C8_witness :
    (removeSong exDB8 1).songs.filter (fun s => s.id == 1) = [] ∧
    (removeSong exDB8 1).versions.filter (fun v => v.songId == 1) = [] ∧
    (removeSong exDB8 1).notes.filter (fun t => t.versionId == 10) = [] :=
  have H := (C8_cascade_delete exDB8 1 10).2 ⟨exSong8, by decide, by decide⟩
  ⟨H.1, H.2.1, (H.2.2 exVersion8a (by decide) (by decide)).2.1⟩

/-! ## Lemmas for the migration's foreign-key remap -/

theorem remapTable_eq_map {α : Type} (pairs : List (Nat × Nat)) :
    ∀ rows : List (DepRow α),
      remapTable pairs rows =
        rows.map (fun r => ⟨remapId pairs r.versionId, r.payload⟩) := by
  induction pairs with
  | nil =>
    intro rows
    exact (List.map_id' rows).symm
  | cons p ps ih =>
    intro rows
    simp only [remapTable, List.foldl_cons] at *
    rw [ih (rows.map (remapRow p.1 p.2)), List.map_map]
    apply List.map_congr_left
    intro r _
    simp only [Function.comp]
    unfold remapRow
    by_cases h : r.versionId = p.1 <;>
      simp [remapId, List.foldl_cons, h]

theorem remapId_no_key (pairs : List (Nat × Nat)) (vid : Nat)
    (h : ∀ p ∈ pairs, vid ≠ p.1) : remapId pairs vid = vid := by
  induction pairs with
  | nil => rfl
  | cons p ps ih =>
    simp only [remapId, List.foldl_cons]
    rw [if_neg (h p (List.mem_cons_self _ _))]
    exact ih (fun q hq => h q (List.mem_cons_of_mem _ hq))

theorem remapId_find (pairs : List (Nat × Nat)) (vid : Nat) (pr : Nat × Nat)
    (hfresh : ∀ p ∈ pairs, ∀ q ∈ pairs, p.2 ≠ q.1)
    (hfind : pairs.find? (fun p => p.1 == vid) = some pr) :
    remapId pairs vid = pr.2 := by
  induction pairs with
  | nil => simp at hfind
  | cons p ps ih =>
    by_cases hc : p.1 = vid
    · rw [List.find?_cons_of_pos _ (by simp [hc])] at hfind
      have hpr : p = pr := by injection hfind
      simp only [remapId, List.foldl_cons, if_pos hc.symm]
      rw [← hpr]
      exact remapId_no_key ps p.2
        (fun q hq => hfresh p (List.mem_cons_self _ _) q
          (List.mem_cons_of_mem _ hq))
    · rw [List.find?_cons_of_neg _ (by simp [hc])] at hfind
      simp only [remapId, List.foldl_cons]
      rw [if_neg (Ne.symm hc)]
      exact ih
        (fun a ha q hq => hfresh a (List.mem_cons_of_mem _ ha) q
          (List.mem_cons_of_mem _ hq)) hfind

theorem processGroups_pairs (fsize : Nat → Option Nat)
    (groups : List (String × List V1Version)) :
    ∀ n0, ∀ pr ∈ (processGroups fsize groups n0).2.1,
      n0 ≤ pr.2 ∧
      ∃ k gs, (k, gs) ∈ groups ∧ (∃ o ∈ gs, o.id = pr.1) ∧
        mkVersionFromGroup fsize k gs pr.2 ∈ (processGroups fsize groups n0).1 := by
  induction groups with
  | nil => intro n0 pr hpr; simp [processGroups] at hpr
  | cons g rest ih =>
    obtain ⟨k0, gs0⟩ := g
    intro n0 pr hpr
    simp only [processGroups] at hpr
    rw [List.mem_append] at hpr
    rcases hpr with hpr | hpr
    · rw [List.mem_map] at hpr
      obtain ⟨o, ho, hpro⟩ := hpr
      refine ⟨by rw [← hpro], k0, gs0, List.mem_cons_self _ _,
        ⟨o, ho, by rw [← hpro]⟩, ?_⟩
      simp only [processGroups]
      rw [← hpro]
      exact List.mem_cons_self _ _
    · obtain ⟨hge, k, gs, hk, ho, hv⟩ := ih (n0 + 1) pr hpr
      refine ⟨by omega, k, gs, List.mem_cons_of_mem _ hk, ho, ?_⟩
      simp only [processGroups]
      exact List.mem_cons_of_mem _ hv

theorem processGroups_complete (fsize : Nat → Option Nat)
    (groups : List (String × List V1Version)) :
    ∀ n0 k gs, (k, gs) ∈ groups → ∀ o ∈ gs,
      ∃ nid, (o.id, nid) ∈ (processGroups fsize groups n0).2.1 := by
  induction groups with
  | nil => intro n0 k gs h; simp at h
  | cons g rest ih =>
    obtain ⟨k0, gs0⟩ := g
    intro n0 k gs hmem o ho
    rcases List.mem_cons.mp hmem with h | h
    · refine ⟨n0, ?_⟩
      simp only [processGroups]
      rw [List.mem_append]
      left
      have hgs : gs = gs0 := by injection h
      rw [hgs] at ho
      exact List.mem_map_of_mem _ ho
    · obtain ⟨nid, hnid⟩ := ih (n0 + 1) k gs h o ho
      refine ⟨nid, ?_⟩
      simp only [processGroups]
      rw [List.mem_append]
      right
      exact hnid

theorem groupInsertV1_members (key : String) (o : V1Version) :
    ∀ (m : List (String × List V1Version)) (k : String)
      (gs : List V1Version), (k, gs) ∈ groupInsertV1 m key o →
      ∀ x ∈ gs, (∃ e ∈ m, x ∈ e.2) ∨ x = o := by
  intro m
  induction m with
  | nil =>
    intro k gs hm x hx
    simp only [groupInsertV1, List.mem_singleton, Prod.mk.injEq] at hm
    rw [hm.2] at hx
    right
    simpa using hx
  | cons e rest ih =>
    obtain ⟨k0, os0⟩ := e
    intro k gs hm x hx
    simp only [groupInsertV1] at hm
    by_cases hk : k0 = key
    · rw [if_pos hk] at hm
      rcases List.mem_cons.mp hm with h | h
      · have hgs : gs = os0 ++ [o] := by injection h
        rw [hgs] at hx
        rcases List.mem_append.mp hx with h2 | h2
        · exact Or.inl ⟨(k0, os0), List.mem_cons_self _ _, h2⟩
        · right
          simpa using h2
      · exact Or.inl ⟨(k, gs), List.mem_cons_of_mem _ h, hx⟩
    · rw [if_neg hk] at hm
      rcases List.mem_cons.mp hm with h | h
      · have hgs : gs = os0 := by injection h
        rw [hgs] at hx
        exact Or.inl ⟨(k0, os0), List.mem_cons_self _ _, hx⟩
      · rcases ih k gs h x hx with h2 | h2
        · obtain ⟨e', he', hx'⟩ := h2
          exact Or.inl ⟨e', List.mem_cons_of_mem _ he', hx'⟩
        · exact Or.inr h2

theorem buildFold_members (os : List V1Version) :
    ∀ (m : List (String × List V1Version)) (k : String)
      (gs : List V1Version),
      (k, gs) ∈ os.foldl (fun m o => groupInsertV1 m (groupKeyV1 o) o) m →
      ∀ x ∈ gs, (∃ e ∈ m, x ∈ e.2) ∨ x ∈ os := by
  induction os with
  | nil =>
    intro m k gs hm x hx
    exact Or.inl ⟨(k, gs), hm, hx⟩
  | cons o os' ih =>
    intro m k gs hm x hx
    simp only [List.foldl_cons] at hm
    rcases ih (groupInsertV1 m (groupKeyV1 o) o) k gs hm x hx with h | h
    · obtain ⟨e', he', hx'⟩ := h
      rcases groupInsertV1_members (groupKeyV1 o) o m e'.1 e'.2
          (by simpa using he') x hx' with h2 | h2
      · exact Or.inl h2
      · right
        rw [h2]
        exact List.mem_cons_self _ _
    · right
      exact List.mem_cons_of_mem _ h

theorem buildGroupsV1_members (olds : List V1Version) :
    ∀ (k : String) (gs : List V1Version), (k, gs) ∈ buildGroupsV1 olds →
      ∀ x ∈ gs, x ∈ olds := by
  intro k gs hm x hx
  rcases buildFold_members olds [] k gs hm x hx with h | h
  · obtain ⟨e', he', _⟩ := h
    cases he'
  · exact h

theorem groupInsertV1_covers_new (key : String) (o : V1Version) :
    ∀ m : List (String × List V1Version),
      ∃ e ∈ groupInsertV1 m key o, o ∈ e.2 := by
  intro m
  induction m with
  | nil =>
    refine ⟨(key, [o]), ?_, by simp⟩
    simp [groupInsertV1]
  | cons e rest ih =>
    obtain ⟨k0, os0⟩ := e
    simp only [groupInsertV1]
    by_cases hk : k0 = key
    · rw [if_pos hk]
      exact ⟨(k0, os0 ++ [o]), List.mem_cons_self _ _, by simp⟩
    · rw [if_neg hk]
      obtain ⟨e', he', hoe⟩ := ih
      exact ⟨e', List.mem_cons_of_mem _ he', hoe⟩

theorem groupInsertV1_covers_pres (key : String) (o' : V1Version)
    (x : V1Version) :
    ∀ m : List (String × List V1Version), (∃ e ∈ m, x ∈ e.2) →
      ∃ e ∈ groupInsertV1 m key o', x ∈ e.2 := by
  intro m
  induction m with
  | nil =>
    rintro ⟨e, he, -⟩
    cases he
  | cons e0 rest ih =>
    obtain ⟨k0, os0⟩ := e0
    rintro ⟨e, he, hx⟩
    simp only [groupInsertV1]
    by_cases hk : k0 = key
    · rw [if_pos hk]
      rcases List.mem_cons.mp he with h | h
      · refine ⟨(k0, os0 ++ [o']), List.mem_cons_self _ _, ?_⟩
        rw [h] at hx
        simp only [List.mem_append]
        exact Or.inl hx
      · exact ⟨e, List.mem_cons_of_mem _ h, hx⟩
    · rw [if_neg hk]
      rcases List.mem_cons.mp he with h | h
      · rw [← h]
        exact ⟨e, List.mem_cons_self _ _, hx⟩
      · obtain ⟨e', he', hx'⟩ := ih ⟨e, h, hx⟩
        exact ⟨e', List.mem_cons_of_mem _ he', hx'⟩

theorem buildFold_covers (os : List V1Version) :
    ∀ (m : List (String × List V1Version)) (x : V1Version),
      ((∃ e ∈ m, x ∈ e.2) ∨ x ∈ os) →
      ∃ e ∈ os.foldl (fun m o => groupInsertV1 m (groupKeyV1 o) o) m,
        x ∈ e.2 := by
  induction os with
  | nil =>
    intro m x h
    rcases h with h | h
    · exact h
    · cases h
  | cons o os' ih =>
    intro m x h
    simp only [List.foldl_cons]
    apply ih
    rcases h with h | h
    · exact Or.inl (groupInsertV1_covers_pres (groupKeyV1 o) o x m h)
    · rcases List.mem_cons.mp h with h | h
      · left
        rw [h]
        exact groupInsertV1_covers_new (groupKeyV1 o) o m
      · exact Or.inr h

theorem buildGroupsV1_covers (olds : List V1Version) :
    ∀ o ∈ olds, ∃ e ∈ buildGroupsV1 olds, o ∈ e.2 :=
  fun o ho => buildFold_covers olds [] o (Or.inr ho)

theorem migrate_remap_generic {α : Type} (fsize : Nat → Option Nat)
    (olds : List V1Version) (nextId : Nat) (rows : List (DepRow α))
    (hnodup : (olds.map (fun o => o.id)).Nodup)
    (hold : ∀ o ∈ olds, o.id < nextId)
    (hrows : ∀ r ∈ rows, ∃ o ∈ olds, o.id = r.versionId) :
    RemappedTable olds
      (processGroups fsize (buildGroupsV1 olds) nextId).1 rows
      (remapTable (processGroups fsize (buildGroupsV1 olds) nextId).2.1
        rows) := by
  have hfresh : ∀ p ∈ (processGroups fsize (buildGroupsV1 olds) nextId).2.1,
      ∀ q ∈ (processGroups fsize (buildGroupsV1 olds) nextId).2.1,
      p.2 ≠ q.1 := by
    intro p hp q hq
    have hp2 := (processGroups_pairs fsize (buildGroupsV1 olds) nextId p hp).1
    obtain ⟨-, k, gs, hk, ⟨o', ho', ho'id⟩, -⟩ :=
      processGroups_pairs fsize (buildGroupsV1 olds) nextId q hq
    have ho'olds : o' ∈ olds := buildGroupsV1_members olds k gs hk o' ho'
    have hq1 : q.1 < nextId := by
      rw [← ho'id]
      exact hold o' ho'olds
    omega
  unfold RemappedTable
  rw [remapTable_eq_map, List.forall₂_map_right_iff, List.forall₂_same]
  intro r hr
  refine ⟨rfl, ?_⟩
  obtain ⟨o, ho, hoid⟩ := hrows r hr
  obtain ⟨e, he, hoe⟩ := buildGroupsV1_covers olds o ho
  obtain ⟨nid, hnid⟩ := processGroups_complete fsize (buildGroupsV1 olds)
    nextId e.1 e.2 (by simpa using he) o hoe
  have hfindS : ((processGroups fsize (buildGroupsV1 olds) nextId).2.1.find?
      (fun p => p.1 == o.id)).isSome :=
    List.find?_isSome.mpr ⟨(o.id, nid), hnid, by simp⟩
  obtain ⟨pr, hpr⟩ := Option.isSome_iff_exists.mp hfindS
  have hpr1 : pr.1 = o.id := by
    have := List.find?_some hpr
    simpa using this
  have hprmem : pr ∈ (processGroups fsize (buildGroupsV1 olds) nextId).2.1 :=
    List.mem_of_find?_eq_some hpr
  obtain ⟨-, k, gs, hk, ⟨o', ho', ho'id⟩, hvmem⟩ :=
    processGroups_pairs fsize (buildGroupsV1 olds) nextId pr hprmem
  have hremap : remapId (processGroups fsize (buildGroupsV1 olds) nextId).2.1
      r.versionId = pr.2 := by
    rw [← hoid]
    exact remapId_find _ o.id pr hfresh hpr
  refine ⟨mkVersionFromGroup fsize k gs pr.2, hvmem, ?_, ?_⟩
  · show (mkVersionFromGroup fsize k gs pr.2).id =
      remapId (processGroups fsize (buildGroupsV1 olds) nextId).2.1 r.versionId
    rw [hremap]
    rfl
  · intro o2 ho2 ho2id
    have ho'olds : o' ∈ olds := buildGroupsV1_members olds k gs hk o' ho'
    have ho2o' : o2 = o' :=
      List.inj_on_of_nodup_map hnodup ho2 ho'olds
        (by rw [ho2id, ho'id, hpr1, hoid])
    rw [ho2o']
    show o'.fileName ∈ (gs.map (v1ToFormat fsize)).map (fun f => f.fileName)
    rw [List.map_map]
    exact List.mem_map_of_mem _ ho'

/-- C3: after the 1-to-2 migration completes, every VersionTag, Note and
Image row that referenced a legacy version id references the id of the
new grouped Version whose formats contain that legacy row's file, with
its other fields unchanged, and no dependent row references a version id
absent from the new versions table.  The hypotheses state a well-formed
pre-migration store: unique legacy primary keys, an auto-increment
counter past every legacy id, and dependent rows that reference existing
legacy versions. -/
theorem C3_migration_remaps_dependents {α β γ : Type}
    (fsize : Nat → Option Nat) (olds : List V1Version)
    (tags : List (DepRow α)) (notes : List (DepRow β))
    (images : List (DepRow γ)) (nextId : Nat)
    (hnodup : (olds.map (fun o => o.id)).Nodup)
    (hold : ∀ o ∈ olds, o.id < nextId)
    (htags : ∀ r ∈ tags, ∃ o ∈ olds, o.id = r.versionId)
    (hnotes : ∀ r ∈ notes, ∃ o ∈ olds, o.id = r.versionId)
    (himages : ∀ r ∈ images, ∃ o ∈ olds, o.id = r.versionId) :
    RemappedTable olds
      (migrateV1toV2 fsize olds tags notes images nextId).1 tags
      (migrateV1toV2 fsize olds tags notes images nextId).2.1 ∧
    RemappedTable olds
      (migrateV1toV2 fsize olds tags notes images nextId).1 notes
      (migrateV1toV2 fsize olds tags notes images nextId).2.2.1 ∧
    RemappedTable olds
      (migrateV1toV2 fsize olds tags notes images nextId).1 images
      (migrateV1toV2 fsize olds tags notes images nextId).2.2.2.1 :=
  ⟨migrate_remap_generic fsize olds nextId tags hnodup hold htags,
   migrate_remap_generic fsize olds nextId notes hnodup hold hnotes,
   migrate_remap_generic fsize olds nextId images hnodup hold himages⟩

/-- Witness for C3 at a three-row legacy store whose notes reference all
three legacy versions. -/
theorem C3_witness :
    (exOlds3.map (fun o => o.id)).Nodup ∧
    RemappedTable exOlds3
      (migrateV1toV2 exFsizeNone exOlds3 exTags3 exNotes3 exImages3 10).1
      exNotes3
      (migrateV1toV2 exFsizeNone exOlds3 exTags3 exNotes3 exImages3
        10).2.2.1 :=
  ⟨by decide,
    (C3_migration_remaps_dependents exFsizeNone exOlds3 exTags3 exNotes3
      exImages3 10 (by decide) (by decide) (by decide) (by decide)
      (by decide)).2.1⟩

end SongNotes
